import Mathlib

/-!
# Verification of the guild-rs specification

A shallow embedding of the guild-rs crates (engine, requirements, providers,
plugins) together with theorems settling the frozen claims about them.

Conventions of the embedding:

* Rust hex strings are embedded as `List Char` (all data is ASCII hex).
* Machine integers (`u64`, `u128`, `U256`, `H160`) are embedded as `Nat`;
  wherever a width matters a bound such as `n < 2 ^ 160` appears as a
  hypothesis.
* `f64` arithmetic on balances is embedded exactly over `ℚ`; the claims under
  scrutiny are about which divisor is applied, not about rounding.
* Network calls are abstracted by oracle functions passed as parameters: the
  oracle gives the decoded on-chain answer that an honest RPC node would
  return, and fallible stages return `Except`/`Option` values.
-/

/-! ## Hexadecimal encoding and decoding

The Rust code formats words with `format!("{:064x}", n)` (lowercase hex,
zero-padded to 64 characters, never truncated) and addresses with
`format!("{:x}", h160)` (exactly 40 characters).  `U256::from_str` decodes a
hex string.  We model both directions and prove the round trip.
-/

/-- Lowercase hex digit for a value below 16, as produced by `{:x}` formatting. -/
def hexChar (n : Nat) : Char :=
  if n < 10 then Char.ofNat (48 + n) else Char.ofNat (87 + n)

/-- Fuel-driven big-endian hex digits of a natural number. -/
def hexDigitsAux : Nat → Nat → List Char
  | 0, _ => []
  | fuel + 1, n =>
    if n < 16 then [hexChar n]
    else hexDigitsAux fuel (n / 16) ++ [hexChar (n % 16)]

/-- Big-endian lowercase hex digits of `n`, without leading zeroes
(`0` renders as `"0"`), as produced by Rust `{:x}` formatting. -/
def hexDigits (n : Nat) : List Char := hexDigitsAux (n + 1) n

/-- `format!("{:0wx}", n)`: hex digits of `n` left-padded with zeroes to
`w` characters (longer when `n` needs more digits, never truncated). -/
def formatHex (n w : Nat) : List Char :=
  List.replicate (w - (hexDigits n).length) '0' ++ hexDigits n

/-- Numeric value of one hex character (upper or lower case), as accepted by
`U256::from_str`. -/
def hexVal (c : Char) : Option Nat :=
  if 48 ≤ c.toNat ∧ c.toNat ≤ 57 then some (c.toNat - 48)
  else if 97 ≤ c.toNat ∧ c.toNat ≤ 102 then some (c.toNat - 87)
  else if 65 ≤ c.toNat ∧ c.toNat ≤ 70 then some (c.toNat - 55)
  else none

/-- Big-endian hex decoding with an accumulator; fails on a non-hex character. -/
def decodeHexCore : List Char → Nat → Option Nat
  | [], acc => some acc
  | c :: rest, acc =>
    match hexVal c with
    | some v => decodeHexCore rest (16 * acc + v)
    | none => none

/-- `U256::from_str` on a chunk of hex characters: fails on the empty string
or on a non-hex character. -/
def decodeHexWord (cs : List Char) : Option Nat :=
  if cs.isEmpty then none else decodeHexCore cs 0

theorem hexDigitsAux_fuel_irrel :
    ∀ f₁ f₂ n, n < f₁ → n < f₂ → hexDigitsAux f₁ n = hexDigitsAux f₂ n := by
  intro f₁
  induction f₁ with
  | zero => intro f₂ n h₁ _; omega
  | succ f ih =>
    intro f₂ n h₁ h₂
    cases f₂ with
    | zero => omega
    | succ g =>
      simp only [hexDigitsAux]
      split
      · rfl
      · rename_i hn
        rw [ih g (n / 16) (by omega) (by omega)]

theorem hexDigits_eq (n : Nat) :
    hexDigits n =
      if n < 16 then [hexChar n] else hexDigits (n / 16) ++ [hexChar (n % 16)] := by
  unfold hexDigits
  conv_lhs => rw [hexDigitsAux]
  split
  · rfl
  · rename_i hn
    rw [hexDigitsAux_fuel_irrel n (n / 16 + 1) (n / 16) (by omega) (by omega)]

theorem hexDigits_ne_nil (n : Nat) : hexDigits n ≠ [] := by
  rw [hexDigits_eq]
  split
  · simp
  · simp

theorem hexVal_hexChar {d : Nat} (h : d < 16) : hexVal (hexChar d) = some d := by
  have : ∀ d, d < 16 → hexVal (hexChar d) = some d := by decide
  exact this d h

theorem decodeHexCore_append (xs ys : List Char) (acc : Nat) :
    decodeHexCore (xs ++ ys) acc =
      (decodeHexCore xs acc).bind (fun a => decodeHexCore ys a) := by
  induction xs generalizing acc with
  | nil => simp [decodeHexCore]
  | cons c rest ih =>
    simp only [List.cons_append, decodeHexCore]
    cases hexVal c with
    | none => simp
    | some v => simp [ih]

theorem decodeHexCore_hexDigits (n : Nat) :
    ∀ acc, decodeHexCore (hexDigits n) acc =
      some (acc * 16 ^ (hexDigits n).length + n) := by
  induction n using Nat.strong_induction_on with
  | _ n ih =>
    intro acc
    rw [hexDigits_eq]
    by_cases h : n < 16
    · rw [if_pos h]
      simp [decodeHexCore, hexVal_hexChar h, pow_one]
      ring
    · rw [if_neg h]
      rw [decodeHexCore_append, ih (n / 16) (by omega) acc]
      have hm : hexVal (hexChar (n % 16)) = some (n % 16) :=
        hexVal_hexChar (Nat.mod_lt n (by omega))
      simp only [Option.some_bind, decodeHexCore, hm, List.length_append,
        List.length_cons, List.length_nil]
      congr 1
      rw [pow_succ]
      generalize 16 ^ (hexDigits (n / 16)).length = X
      have h2 : 16 * (acc * X + n / 16) + n % 16
          = 16 * (acc * X) + (16 * (n / 16) + n % 16) := by ring
      rw [h2, show 16 * (n / 16) + n % 16 = n from by omega]
      ring

theorem decodeHexCore_replicate_zero (k : Nat) :
    decodeHexCore (List.replicate k '0') 0 = some 0 := by
  induction k with
  | zero => simp [decodeHexCore]
  | succ m ih =>
    simp only [List.replicate_succ, decodeHexCore]
    have h0 : hexVal '0' = some 0 := by decide
    rw [h0]
    simpa using ih

theorem decodeHexCore_formatHex (n w : Nat) :
    decodeHexCore (formatHex n w) 0 = some n := by
  unfold formatHex
  rw [decodeHexCore_append, decodeHexCore_replicate_zero]
  simpa using decodeHexCore_hexDigits n 0

theorem formatHex_injective {a b w : Nat} (h : formatHex a w = formatHex b w) :
    a = b := by
  have ha := decodeHexCore_formatHex a w
  have hb := decodeHexCore_formatHex b w
  rw [h] at ha
  rw [ha] at hb
  exact (Option.some.injEq _ _).mp hb

theorem hexDigits_length_le {n w : Nat} (hw : 0 < w) (h : n < 16 ^ w) :
    (hexDigits n).length ≤ w := by
  induction n using Nat.strong_induction_on generalizing w with
  | _ n ih =>
    rw [hexDigits_eq]
    by_cases hlt : n < 16
    · rw [if_pos hlt]
      simpa using hw
    · rw [if_neg hlt]
      simp only [List.length_append, List.length_cons, List.length_nil]
      have hw2 : 2 ≤ w := by
        by_contra hc
        have : w = 1 := by omega
        subst this
        simp [pow_one] at h
        omega
      have hdiv : n / 16 < 16 ^ (w - 1) := by
        have hpow : (16 : ℕ) ^ w = 16 * 16 ^ (w - 1) := by
          conv_lhs => rw [show w = (w - 1) + 1 by omega]
          rw [pow_succ]
          ring
        rw [hpow] at h
        exact Nat.div_lt_of_lt_mul h
      have := ih (n / 16) (by omega) (w := w - 1) (by omega) hdiv
      omega

theorem formatHex_length {n w : Nat} (hw : 0 < w) (h : n < 16 ^ w) :
    (formatHex n w).length = w := by
  unfold formatHex
  have := hexDigits_length_le hw h
  simp [List.length_append, List.length_replicate]
  omega

/-- A `{:064x}` word of a value fitting in 40 hex digits splits into 24
leading zeroes followed by the 40-character rendering of the same value. -/
theorem formatHex_64_split {n : Nat} (h : n < 16 ^ 40) :
    formatHex n 64 = List.replicate 24 '0' ++ formatHex n 40 := by
  unfold formatHex
  have hlen := hexDigits_length_le (by omega) h
  rw [← List.append_assoc, ← List.replicate_add]
  congr 2
  omega

/-! ## Multicall calldata assembly

Embedding of `providers/src/evm/jsonrpc/contract/multicall.rs`.  A `Call`
is a target address (`H160`, embedded as `Nat`) and a hex calldata string
(embedded as `List Char`).  The `aggregate` function assembles the calldata
for the Multicall `aggregate((address,bytes)[])` function.  The usize
subtraction `DATA_PART_LEN - data_len` panics on underflow, which we model
by returning `none`.
-/

structure Call where
  target : Nat
  call_data : List Char

def AGGREGATE_FUNC_SIG : List Char := ['2', '5', '2', 'd', 'b', 'a', '4', '2']

def PARAM_COUNT_LEN : Nat := 32

def ZEROES : List Char := List.replicate 24 '0'

def DATA_PART_LEN : Nat := 64

/-- Rust `collect::<Option<Vec<_>>>` over a mapped iterator: the first
failing element aborts. -/
def collectOption (f : α → Option β) : List α → Option (List β)
  | [] => some []
  | a :: l =>
    match f a with
    | none => none
    | some b => (collectOption f l).map (fun bs => b :: bs)

/-- Body of the per-call closure inside `aggregate`: the target word
(24 zeroes then the 40-digit address), the fixed data-part length word, the
data length word, the calldata and the zero padding.  `none` models the
panic of `DATA_PART_LEN - data_len` underflowing. -/
def encodeCall (c : Call) : Option (List Char) :=
  let data_len := c.call_data.length / 2
  if data_len ≤ DATA_PART_LEN then
    some (ZEROES ++ formatHex c.target 40 ++ formatHex DATA_PART_LEN 64
      ++ formatHex data_len 64 ++ c.call_data
      ++ List.replicate ((DATA_PART_LEN - data_len) * 2) '0')
  else none

/-- The `for` loop building the head offsets: one word per remaining call,
the factor starting at the call count and stepping by 5. -/
def offsetsLoop : Nat → Nat → List Char
  | 0, _ => []
  | k + 1, factor => formatHex (factor * 32) 64 ++ offsetsLoop k (factor + 5)

/-- `aggregate` from `multicall.rs`.  The `H160` target renders with `{:x}` as
exactly 40 hex digits (`formatHex _ 40`; theorems carry the `target < 16 ^ 40`
bound the Rust type enforces).  Returns `none` when some per-call encoding
panics. -/
def aggregate (calls : List Call) : Option (List Char) :=
  let param_count_len := formatHex PARAM_COUNT_LEN 64
  let param_count := formatHex calls.length 64
  match collectOption encodeCall calls with
  | none => none
  | some parts =>
    let aggregated := parts.foldl (· ++ ·) []
    let offset := offsetsLoop calls.length calls.length
    some (AGGREGATE_FUNC_SIG ++ param_count_len ++ param_count ++ offset ++ aggregated)

/-- The output layout the claim describes: selector, word 32, word `n`,
head-offset words `(n + 5*i) * 32`, then per call the address left-padded to
a 32-byte word, a word 64, the calldata byte length word, and the calldata
right-padded with zero bytes to a 64-byte boundary. -/
def aggregateSpec (calls : List Call) : List Char :=
  let n := calls.length
  AGGREGATE_FUNC_SIG
    ++ formatHex 32 64
    ++ formatHex n 64
    ++ ((List.range n).map (fun i => formatHex ((n + 5 * i) * 32) 64)).flatten
    ++ (calls.map (fun c =>
          formatHex c.target 64
            ++ formatHex 64 64
            ++ formatHex (c.call_data.length / 2) 64
            ++ c.call_data
            ++ List.replicate (128 - c.call_data.length) '0')).flatten

theorem collectOption_eq_some_map {f : α → Option β} {g : α → β} :
    ∀ {l : List α}, (∀ a ∈ l, f a = some (g a)) →
      collectOption f l = some (l.map g) := by
  intro l
  induction l with
  | nil => intro _; rfl
  | cons a l ih =>
    intro h
    have ha := h a (List.mem_cons_self a l)
    simp only [collectOption, ha]
    rw [ih (fun b hb => h b (List.mem_cons_of_mem a hb))]
    rfl

theorem collectOption_eq_none_iff {f : α → Option β} :
    ∀ {l : List α}, collectOption f l = none ↔ ∃ a ∈ l, f a = none := by
  intro l
  induction l with
  | nil => simp [collectOption]
  | cons a l ih =>
    simp only [collectOption]
    cases hfa : f a with
    | none => simp [hfa]
    | some b =>
      cases hrec : collectOption f l with
      | none =>
        simp only [Option.map_none]
        constructor
        · intro _
          obtain ⟨x, hx, hfx⟩ := ih.mp hrec
          exact ⟨x, List.mem_cons_of_mem a hx, hfx⟩
        · intro _; rfl
      | some bs =>
        simp only [Option.map_some]
        constructor
        · intro hcontr; cases hcontr
        · rintro ⟨x, hx, hfx⟩
          rcases List.mem_cons.mp hx with rfl | hx2
          · rw [hfa] at hfx; cases hfx
          · have := ih.mpr ⟨x, hx2, hfx⟩
            rw [this] at hrec; cases hrec

theorem foldl_append_eq_flatten :
    ∀ (ls : List (List Char)) (acc : List Char),
      ls.foldl (· ++ ·) acc = acc ++ ls.flatten := by
  intro ls
  induction ls with
  | nil => intro acc; simp
  | cons l ls ih =>
    intro acc
    simp only [List.foldl_cons, List.flatten_cons, ih]
    rw [List.append_assoc]

theorem offsetsLoop_eq_map :
    ∀ (k f : Nat),
      offsetsLoop k f =
        ((List.range k).map (fun i => formatHex ((f + 5 * i) * 32) 64)).flatten := by
  intro k
  induction k with
  | zero => intro f; rfl
  | succ m ih =>
    intro f
    rw [List.range_succ_eq_map]
    simp only [offsetsLoop, List.map_cons, List.flatten_cons, List.map_map]
    rw [ih (f + 5)]
    have hmap : List.map ((fun i => formatHex ((f + 5 * i) * 32) 64) ∘ Nat.succ)
          (List.range m)
        = List.map (fun i => formatHex ((f + 5 + 5 * i) * 32) 64) (List.range m) := by
      apply List.map_congr_left
      intro i _
      simp only [Function.comp_apply]
      congr 2
      omega
    rw [hmap]
    have h0 : (f + 5 * 0) * 32 = f * 32 := by omega
    rw [h0]

/-- **C4.** For every list of `n` calls whose calldata is well formed (even
hex length, at most 64 bytes) and whose targets fit in 160 bits, `aggregate`
produces exactly the layout of the claim: the 4-byte selector, a word 32, a
word `n`, head-offset words `(n + 5*i) * 32`, then per call the address word,
a word 64, the calldata byte-length word, and the calldata right-padded with
zeroes to a 64-byte boundary; for `n = 0` this is the selector, the word 32
and a zero count with no further bytes. -/
theorem aggregate_layout_correct (calls : List Call)
    (h : ∀ c ∈ calls,
      c.call_data.length % 2 = 0 ∧ c.call_data.length ≤ 128 ∧ c.target < 16 ^ 40) :
    aggregate calls = some (aggregateSpec calls) := by
  have hbody : ∀ c ∈ calls,
      encodeCall c =
        some (formatHex c.target 64 ++ formatHex 64 64
          ++ formatHex (c.call_data.length / 2) 64 ++ c.call_data
          ++ List.replicate (128 - c.call_data.length) '0') := by
    intro c hc
    obtain ⟨heven, hle, htgt⟩ := h c hc
    unfold encodeCall
    rw [if_pos (by show c.call_data.length / 2 ≤ 64; omega)]
    congr 1
    rw [formatHex_64_split htgt]
    show List.replicate 24 '0' ++ formatHex c.target 40 ++ formatHex 64 64
        ++ formatHex (c.call_data.length / 2) 64 ++ c.call_data
        ++ List.replicate ((64 - c.call_data.length / 2) * 2) '0' = _
    rw [show (64 - c.call_data.length / 2) * 2 = 128 - c.call_data.length by omega]
  unfold aggregate
  rw [collectOption_eq_some_map hbody]
  simp only []
  rw [foldl_append_eq_flatten, offsetsLoop_eq_map]
  unfold aggregateSpec
  simp [List.append_assoc, PARAM_COUNT_LEN]

set_option maxRecDepth 10000 in
theorem aggregate_layout_correct_witness :
    (∀ c ∈ [Call.mk 0x458691c1692cd82facfb2c5127e36d63213448a8
        (("70a0823100000000000000000000000014ddfe8ea7ffc338015627d160ccaf99e8f16dd3").data)],
      c.call_data.length % 2 = 0 ∧ c.call_data.length ≤ 128 ∧ c.target < 16 ^ 40) ∧
    aggregate [Call.mk 0x458691c1692cd82facfb2c5127e36d63213448a8
        (("70a0823100000000000000000000000014ddfe8ea7ffc338015627d160ccaf99e8f16dd3").data)] =
      some (aggregateSpec [Call.mk 0x458691c1692cd82facfb2c5127e36d63213448a8
        (("70a0823100000000000000000000000014ddfe8ea7ffc338015627d160ccaf99e8f16dd3").data)]) :=
  ⟨by decide, aggregate_layout_correct _ (by decide)⟩

/-- **C10.** `aggregate` is total exactly on call lists in which every
calldata is at most 64 bytes: it returns `none` (the underflow panic of
`DATA_PART_LEN - data_len`) precisely when some call has calldata longer
than 64 bytes. -/
theorem aggregate_none_iff_oversized_calldata (calls : List Call) :
    aggregate calls = none ↔ ∃ c ∈ calls, 64 < c.call_data.length / 2 := by
  unfold aggregate
  cases hcol : collectOption encodeCall calls with
  | none =>
    simp only [true_iff]
    obtain ⟨c, hc, hfc⟩ := collectOption_eq_none_iff.mp hcol
    unfold encodeCall at hfc
    by_cases hlen : c.call_data.length / 2 ≤ DATA_PART_LEN
    · rw [if_pos hlen] at hfc; cases hfc
    · exact ⟨c, hc, by unfold DATA_PART_LEN at hlen; omega⟩
  | some parts =>
    simp only []
    constructor
    · intro hcontr; cases hcontr
    · rintro ⟨c, hc, hbig⟩
      have : collectOption encodeCall calls = none := by
        apply collectOption_eq_none_iff.mpr
        refine ⟨c, hc, ?_⟩
        unfold encodeCall
        rw [if_neg (by unfold DATA_PART_LEN; omega)]
      rw [this] at hcol; cases hcol

set_option maxRecDepth 10000 in
theorem aggregate_none_iff_oversized_calldata_witness :
    aggregate [Call.mk 1 (List.replicate 130 '0')] = none :=
  (aggregate_none_iff_oversized_calldata _).mpr
    ⟨Call.mk 1 (List.replicate 130 '0'), List.mem_singleton.mpr rfl, by decide⟩

/-! ## Multicall response parsing -/

/-- Fuel-driven chunking of a character list into 64-character pieces. -/
def chunksOfAux : Nat → List Char → List (List Char)
  | 0, _ => []
  | _, [] => []
  | fuel + 1, cs => cs.take 64 :: chunksOfAux fuel (cs.drop 64)

/-- The response walked in 64-hex-character (32-byte) chunks. -/
def chunks64 (cs : List Char) : List (List Char) := chunksOfAux cs.length cs

/-- Modelled from the spec: `parse_multicall_result` is code of this
repository that is not under `src/` (only its callers in
`providers/src/evm/jsonrpc/contract/mod.rs` are).  Per the spec it walks the
response in 64-hex-character (32-byte) chunks, skips the two leading header
words, decodes each remaining chunk as an unsigned big integer balance, and
parses malformed or missing words to a zero balance instead of erroring;
`n` is the number of queried addresses in the batch. -/
def parse_multicall_result (res : List Char) (n : Nat) : List Nat :=
  (List.range n).map (fun i => ((decodeHexWord ((chunks64 res).getD (i + 2) [])).getD 0))

theorem chunksOfAux_getD (i : Nat) :
    ∀ (fuel : Nat) (cs : List Char), cs.length ≤ fuel →
      (chunksOfAux fuel cs).getD i [] = (cs.drop (64 * i)).take 64 := by
  induction i with
  | zero =>
    intro fuel cs hfuel
    cases fuel with
    | zero =>
      cases cs with
      | nil => simp [chunksOfAux]
      | cons c cs => simp at hfuel
    | succ f =>
      cases cs with
      | nil => simp [chunksOfAux]
      | cons c cs => simp [chunksOfAux]
  | succ j ih =>
    intro fuel cs hfuel
    cases fuel with
    | zero =>
      cases cs with
      | nil => simp [chunksOfAux]
      | cons c cs => simp at hfuel
    | succ f =>
      cases cs with
      | nil => simp [chunksOfAux]
      | cons c cs =>
        show (chunksOfAux f ((c :: cs).drop 64)).getD j [] = _
        rw [ih f ((c :: cs).drop 64)
          (by simp only [List.length_drop, List.length_cons] at hfuel ⊢; omega)]
        rw [List.drop_drop]
        congr 2
        omega

theorem chunks64_getD (cs : List Char) (i : Nat) :
    (chunks64 cs).getD i [] = (cs.drop (64 * i)).take 64 :=
  chunksOfAux_getD i cs.length cs (Nat.le_refl _)

/-- **C5.** For every response string and batch size `n`,
`parse_multicall_result` yields exactly `n` balances; the `i`-th balance is
the unsigned big-integer decoding of the 32-byte chunk of the response that
is `2 + i` chunks in (so the two leading header words are skipped), and when
the response holds fewer than `2 + i + 1` words (in particular, fewer than
`2 + n` words) the entry is a zero balance instead of an error. -/
theorem parse_multicall_result_walks_chunks (res : List Char) (n i : Nat)
    (hi : i < n) :
    (parse_multicall_result res n).length = n ∧
    (parse_multicall_result res n).getD i 0 =
      (decodeHexWord ((res.drop (64 * (i + 2))).take 64)).getD 0 ∧
    (res.length ≤ 64 * (i + 2) → (parse_multicall_result res n).getD i 0 = 0) := by
  have hlen : (parse_multicall_result res n).length = n := by
    unfold parse_multicall_result
    simp
  have hget : (parse_multicall_result res n).getD i 0 =
      (decodeHexWord ((res.drop (64 * (i + 2))).take 64)).getD 0 := by
    unfold parse_multicall_result
    rw [List.getD_eq_getElem?_getD, List.getElem?_map, List.getElem?_range hi]
    show (decodeHexWord ((chunks64 res).getD (i + 2) [])).getD 0 = _
    rw [chunks64_getD]
  refine ⟨hlen, hget, ?_⟩
  intro hshort
  rw [hget]
  have hdrop : res.drop (64 * (i + 2)) = [] := List.drop_eq_nil_of_le hshort
  rw [hdrop]
  rfl

theorem parse_multicall_result_walks_chunks_witness :
    0 < 2 ∧
    ((parse_multicall_result (List.replicate 128 '0') 2).length = 2 ∧
     (parse_multicall_result (List.replicate 128 '0') 2).getD 0 0 =
       (decodeHexWord (((List.replicate 128 '0').drop (64 * (0 + 2))).take 64)).getD 0 ∧
     ((List.replicate 128 '0').length ≤ 64 * (0 + 2) →
       (parse_multicall_result (List.replicate 128 '0') 2).getD 0 0 = 0)) :=
  ⟨by decide, parse_multicall_result_walks_chunks (List.replicate 128 '0') 2 0 (by decide)⟩

/-! ## JSON-RPC contract balance resolvers

Embedding of `providers/src/evm/jsonrpc/contract/mod.rs` and of the plugin
dispatcher `plugins/evm_balance/src/balance/mod.rs`.  The RPC transport is
abstracted by a `ChainState` oracle holding the decoded answers an honest
node returns for each contract call (`decimals()`, `balanceOf`, `ownerOf`,
ERC-1155 `balanceOf`); `Scalar` (`f64`) arithmetic is embedded exactly
over `ℚ`.
-/

structure ChainState where
  ethBalanceOf : Nat → Nat
  decimalsOf : Nat → Nat
  erc20BalanceOf : Nat → Nat → Nat
  erc721CountOf : Nat → Nat → Nat
  erc721OwnerOf : Nat → Nat → Nat
  erc1155BalanceOf : Nat → Nat → Nat → Nat

/-- `const ETH_BALANCE_DIVIDER: f64 = 10_u128.pow(18) as f64`
(from the plugin module and from `providers/src/evm/jsonrpc`). -/
def ETH_BALANCE_DIVIDER : ℚ := 10 ^ 18

/-- `get_erc20_decimals`: the `decimals()` call on the token contract. -/
def get_erc20_decimals (st : ChainState) (token : Nat) : Nat :=
  st.decimalsOf token

/-- `get_erc20_balance` (single query): fetches the decimals of the token
contract on demand and divides the raw balance by `10 ^ decimals`. -/
def get_erc20_balance (st : ChainState) (token user : Nat) : ℚ :=
  (st.erc20BalanceOf token user : ℚ) / ((10 : ℚ) ^ get_erc20_decimals st token)

/-- `get_erc20_balance_batch`: multicalls `balanceOf` for every user and
divides every raw balance by the constant `ETH_BALANCE_DIVIDER`; the
`decimals()` call is never made on this path. -/
def get_erc20_balance_batch (st : ChainState) (token : Nat)
    (users : List Nat) : List ℚ :=
  users.map (fun u => (st.erc20BalanceOf token u : ℚ) / ETH_BALANCE_DIVIDER)

/-- `get_eth_balance_batch`: native balances divided by `ETH_BALANCE_DIVIDER`. -/
def get_eth_balance_batch (st : ChainState) (users : List Nat) : List ℚ :=
  users.map (fun u => (st.ethBalanceOf u : ℚ) / ETH_BALANCE_DIVIDER)

/-- `get_erc721_balance` (single query).  With a token id the code calls
`ownerOf(id)`, receives the `0x`-prefixed 64-character result word, and
compares the byte slice `addr[26..]` against `format!("{user_address:x}")`,
yielding 1 or 0; without an id it returns the raw `balanceOf` count. -/
def get_erc721_balance (st : ChainState) (token : Nat) (tokenId : Option Nat)
    (user : Nat) : ℚ :=
  match tokenId with
  | some id =>
    let addr := ['0', 'x'] ++ formatHex (st.erc721OwnerOf token id) 64
    if addr.drop 26 = formatHex user 40 then 1 else 0
  | none => (st.erc721CountOf token user : ℚ)

/-- `get_erc721_balance_batch`: multicalls `balanceOf` for every user and
returns the parsed raw counts with no id filtering and no normalization. -/
def get_erc721_balance_batch (st : ChainState) (token : Nat)
    (users : List Nat) : List ℚ :=
  users.map (fun u => (st.erc721CountOf token u : ℚ))

/-- `get_erc1155_balance_batch`: raw ERC-1155 balances of one id. -/
def get_erc1155_balance_batch (st : ChainState) (token id : Nat)
    (users : List Nat) : List ℚ :=
  users.map (fun u => (st.erc1155BalanceOf token id u : ℚ))

/-- `guild_common::TokenType` as used by the plugin dispatcher (addresses
and ids already decoded to numbers). -/
inductive TokenType where
  | Native
  | Fungible (address : Nat)
  | NonFungible (address : Nat) (id : Option Nat)
  | Special (address : Nat) (id : Option Nat)

/-- `EvmProvider::get_balance_batch` from
`plugins/evm_balance/src/balance/mod.rs`.  The contract helpers of the
plugin mirror the ones of `providers/src/evm/jsonrpc/contract/mod.rs`
embedded above.  In the `NonFungible` arm the source discards the id
(`TokenType::NonFungible { address, id: _ }`) and calls the id-less batch
resolver; a `Special` query without an id yields `vec![0.0; len]`. -/
def get_balance_batch (st : ChainState) (tt : TokenType)
    (addresses : List Nat) : List ℚ :=
  match tt with
  | .Native => get_eth_balance_batch st addresses
  | .Fungible address => get_erc20_balance_batch st address addresses
  | .NonFungible address _ => get_erc721_balance_batch st address addresses
  | .Special address (some id) => get_erc1155_balance_batch st address id addresses
  | .Special _ none => List.replicate addresses.length 0

/-- Oracle state exhibiting a token whose `decimals()` is 6: raw balance
`10^6` for every holder, used to evaluate the two ERC-20 paths. -/
def erc20SixDecimalsState : ChainState where
  ethBalanceOf := fun _ => 0
  decimalsOf := fun _ => 6
  erc20BalanceOf := fun _ _ => 10 ^ 6
  erc721CountOf := fun _ _ => 0
  erc721OwnerOf := fun _ _ => 0
  erc1155BalanceOf := fun _ _ _ => 0

/-- **C1.** On a token whose `decimals()` call answers 6 and whose raw
balance is `10^6`, the single-query path normalizes by the fetched
`10^decimals` and returns 1, but the batched path divides the same raw
balance by the constant `ETH_BALANCE_DIVIDER = 10^18` and returns
`10^6 / 10^18 ≠ 1`: batched ERC-20 queries do not divide by the fetched
decimals. -/
theorem erc20_batch_divides_by_constant :
    get_erc20_balance erc20SixDecimalsState 1 2 = 1 ∧
    get_erc20_balance_batch erc20SixDecimalsState 1 [2] = [(10 ^ 6 : ℚ) / 10 ^ 18] ∧
    ((10 ^ 6 : ℚ) / 10 ^ 18 ≠ 1) := by
  refine ⟨?_, ?_, ?_⟩
  · show ((10 ^ 6 : ℕ) : ℚ) / ((10 : ℚ) ^ (6 : ℕ)) = 1
    norm_num
  · show [((10 ^ 6 : ℕ) : ℚ) / ETH_BALANCE_DIVIDER] = [(10 ^ 6 : ℚ) / 10 ^ 18]
    unfold ETH_BALANCE_DIVIDER
    norm_num
  · norm_num

/-- **C6 (amended).** Single ERC-721 queries behave as the claim says: with
a token id the result is 1 exactly when `ownerOf(id)` equals the queried
holder and 0 otherwise, and without an id the raw count is returned; the
plugin batch dispatcher, however, discards a specified token id and returns
the raw `balanceOf` count for every address. -/
theorem erc721_ownership_check (st : ChainState) (token id user : Nat)
    (howner : st.erc721OwnerOf token id < 16 ^ 40) :
    (get_erc721_balance st token (some id) user
        = if st.erc721OwnerOf token id = user then 1 else 0) ∧
    (get_erc721_balance st token none user = (st.erc721CountOf token user : ℚ)) ∧
    (∀ (optId : Option Nat) (addrs : List Nat),
      get_balance_batch st (TokenType.NonFungible token optId) addrs
        = addrs.map (fun a => (st.erc721CountOf token a : ℚ))) := by
  refine ⟨?_, rfl, fun optId addrs => rfl⟩
  show (if (['0', 'x'] ++ formatHex (st.erc721OwnerOf token id) 64).drop 26
      = formatHex user 40 then (1 : ℚ) else 0) = _
  have hdrop : (['0', 'x'] ++ formatHex (st.erc721OwnerOf token id) 64).drop 26
      = formatHex (st.erc721OwnerOf token id) 40 := by
    rw [show (26 : Nat) = (['0', 'x'] : List Char).length + 24 from rfl]
    rw [List.drop_append]
    rw [formatHex_64_split howner]
    simp
  rw [hdrop]
  by_cases heq : st.erc721OwnerOf token id = user
  · rw [if_pos (by rw [heq]), if_pos heq]
  · rw [if_neg (fun hfmt => heq (formatHex_injective hfmt)), if_neg heq]

theorem erc721_ownership_check_witness :
    (2 : Nat) < 16 ^ 40 ∧
    ((get_erc721_balance erc20SixDecimalsState 1 (some 5) 2
        = if erc20SixDecimalsState.erc721OwnerOf 1 5 = 2 then 1 else 0) ∧
     (get_erc721_balance erc20SixDecimalsState 1 none 2
        = (erc20SixDecimalsState.erc721CountOf 1 2 : ℚ)) ∧
     (∀ (optId : Option Nat) (addrs : List Nat),
       get_balance_batch erc20SixDecimalsState (TokenType.NonFungible 1 optId) addrs
         = addrs.map (fun a => (erc20SixDecimalsState.erc721CountOf 1 a : ℚ)))) :=
  ⟨by norm_num,
    erc721_ownership_check erc20SixDecimalsState 1 5 2 (by decide)⟩

/-- Oracle state in which the holder 7 owns token id 5 of contract 1 and
holds 2 tokens of that contract in total. -/
def erc721TwoTokensState : ChainState where
  ethBalanceOf := fun _ => 0
  decimalsOf := fun _ => 18
  erc20BalanceOf := fun _ _ => 0
  erc721CountOf := fun _ _ => 2
  erc721OwnerOf := fun _ _ => 7
  erc1155BalanceOf := fun _ _ _ => 0

/-- **C6 (counterexample).** A NonFungible balance query that specifies a
token id, resolved through the plugin batch dispatcher, returns the raw
token count 2 for a holder who owns the queried id — neither 1 nor 0,
contradicting the claim that an id-specific query never returns the raw
count. -/
theorem erc721_plugin_batch_returns_count :
    get_balance_batch erc721TwoTokensState (TokenType.NonFungible 1 (some 5)) [7]
      = [(2 : ℚ)] ∧
    erc721TwoTokensState.erc721OwnerOf 1 5 = 7 ∧
    ((2 : ℚ) ≠ 1 ∧ (2 : ℚ) ≠ 0) := by
  refine ⟨rfl, rfl, by norm_num, by norm_num⟩

/-! ## Balancy alternate balance source

Embedding of `providers/src/evm/balancy/mod.rs`.  The HTTP endpoint is
abstracted by a `BalancyOracle` giving, per chain and per queried address,
the decoded token lists a request returns (or the typed error of the failed
request); `balancy/types.rs` is not under `src/`, so the record fields carry
exactly the data the code in `src/` reads from them. -/

inductive EvmChain where
  | Ethereum
  | Bsc
  | Gnosis
  | Polygon
  | Goerli
deriving DecidableEq

/-- `BalancyId::balancy_id` from `balancy/mod.rs`. -/
def EvmChain.balancy_id : EvmChain → Option Nat
  | .Ethereum => some 1
  | .Bsc => some 56
  | .Gnosis => some 100
  | .Polygon => some 137
  | _ => none

inductive BalancyError where
  | ChainNotSupported
  | InvalidBalancyRequest
  | TooManyRequests
  | Unknown (status : Nat)
  | TokenTypeNotSupported
  | Reqwest
deriving DecidableEq

/-- One entry of the `erc20` endpoint response: token address and amount. -/
structure Erc20Token where
  token_address : Nat
  amount : Nat

/-- One entry of the `erc721` endpoint response: token address and token id. -/
structure Erc721Token where
  token_address : Nat
  token_id : Nat

/-- One entry of the `erc1155` endpoint response. -/
structure Erc1155Token where
  token_address : Nat
  token_id : Nat
  amount : Nat

structure BalancyOracle where
  erc20 : EvmChain → Nat → Except BalancyError (List Erc20Token)
  erc721 : EvmChain → Nat → Except BalancyError (List Erc721Token)
  erc1155 : EvmChain → Nat → Except BalancyError (List Erc1155Token)

/-- `make_balancy_request`: an unsupported chain fails before any network
traffic; otherwise the oracle answers for the endpoint. -/
def make_balancy_request (fetch : EvmChain → Nat → Except BalancyError α)
    (chain : EvmChain) (address : Nat) : Except BalancyError α :=
  match chain.balancy_id with
  | none => .error .ChainNotSupported
  | some _ => fetch chain address

/-- Balancy `get_erc20_balance`: amount of the first response entry whose
token address matches, `U256::default()` (zero) when none does. -/
def balancy_get_erc20_balance (o : BalancyOracle) (chain : EvmChain)
    (token_address user_address : Nat) : Except BalancyError Nat :=
  (make_balancy_request o.erc20 chain user_address).map (fun tokens =>
    ((tokens.find? (fun t => t.token_address == token_address)).map
      (fun t => t.amount)).getD 0)

/-- Balancy `get_erc721_balance`: the count of response entries matching the
token address and, when an id is queried, the token id. -/
def balancy_get_erc721_balance (o : BalancyOracle) (chain : EvmChain)
    (token_address : Nat) (token_id : Option Nat) (user_address : Nat) :
    Except BalancyError Nat :=
  (make_balancy_request o.erc721 chain user_address).map (fun tokens =>
    (tokens.filter (fun t =>
      t.token_address == token_address &&
        match token_id with
        | some id => t.token_id == id
        | none => true)).length)

/-- Balancy `get_erc1155_balance`: sum of the amounts of matching entries
(`unwrap_or_default` on the empty reduction). -/
def balancy_get_erc1155_balance (o : BalancyOracle) (chain : EvmChain)
    (token_address : Nat) (token_id : Option Nat) (user_address : Nat) :
    Except BalancyError Nat :=
  (make_balancy_request o.erc1155 chain user_address).map (fun tokens =>
    ((tokens.filter (fun t =>
      t.token_address == token_address &&
        match token_id with
        | some id => t.token_id == id
        | none => true)).map (fun t => t.amount)).sum)

/-- `BalancyProvider::get_balance_for_one`: dispatch on the token type;
`Native` is not supported. -/
def get_balance_for_one (o : BalancyOracle) (chain : EvmChain)
    (token_type : TokenType) (user_address : Nat) : Except BalancyError Nat :=
  match token_type with
  | .Fungible address => balancy_get_erc20_balance o chain address user_address
  | .NonFungible address id => balancy_get_erc721_balance o chain address id user_address
  | .Special address id => balancy_get_erc1155_balance o chain address id user_address
  | .Native => .error .TokenTypeNotSupported

/-- `BalancyProvider::get_balance_for_many`: every address resolved through
`get_balance_for_one`, any failure replaced by `U256::from(0)`, the whole
batch wrapped in `Ok`. -/
def get_balance_for_many (o : BalancyOracle) (chain : EvmChain)
    (token_type : TokenType) (addresses : List Nat) :
    Except BalancyError (List Nat) :=
  .ok (addresses.map (fun address =>
    match get_balance_for_one o chain token_type address with
    | .ok v => v
    | .error _ => 0))

/-- **C7.** For every oracle, chain, token type and address list, the batch
call returns `Ok` with exactly one balance per input address in input
order — the individual lookup's value when it succeeds and zero when it
fails — so no single address's failure fails the batch. -/
theorem get_balance_for_many_total (o : BalancyOracle) (chain : EvmChain)
    (token_type : TokenType) (addresses : List Nat) :
    ∃ l, get_balance_for_many o chain token_type addresses = .ok l ∧
      l.length = addresses.length ∧
      ∀ i, i < addresses.length →
        l.getD i 0 =
          match get_balance_for_one o chain token_type (addresses.getD i 0) with
          | .ok v => v
          | .error _ => 0 := by
  refine ⟨_, rfl, by simp [get_balance_for_many], ?_⟩
  intro i hi
  rw [List.getD_eq_getElem?_getD, List.getElem?_map]
  rw [(List.getElem?_eq_some_iff (l := addresses)).mpr
    ⟨hi, rfl⟩]
  rw [List.getD_eq_getElem?_getD, (List.getElem?_eq_some_iff (l := addresses)).mpr
    ⟨hi, rfl⟩]
  rfl

theorem get_balance_for_many_total_witness :
    (0 : Nat) < 1 ∧
    ∃ l, get_balance_for_many
        (BalancyOracle.mk (fun _ _ => .error .TooManyRequests)
          (fun _ _ => .error .TooManyRequests) (fun _ _ => .error .TooManyRequests))
        EvmChain.Ethereum (TokenType.Fungible 3) [9] = .ok l ∧
      l.length = [9].length ∧
      ∀ i, i < [(9 : Nat)].length →
        l.getD i 0 =
          match get_balance_for_one
              (BalancyOracle.mk (fun _ _ => .error .TooManyRequests)
                (fun _ _ => .error .TooManyRequests) (fun _ _ => .error .TooManyRequests))
              EvmChain.Ethereum (TokenType.Fungible 3) ([(9 : Nat)].getD i 0) with
          | .ok v => v
          | .error _ => 0 :=
  ⟨Nat.zero_lt_one,
    get_balance_for_many_total _ EvmChain.Ethereum (TokenType.Fungible 3) [9]⟩

/-! ## Relations

Embedding of `requirements/src/relation.rs` (the copy in
`common/src/lib.rs` is textually identical).  The Rust type is generic in
`T: PartialEq + PartialOrd` and is exercised on ordered scalars; `Between`
holds a `Range<T>` (whose `contains` is `start <= x && x < end`) and
`BetweenInclusive` a `RangeInclusive<T>` (`start <= x && x <= end`). -/

inductive Relation (α : Type) where
  | EqualTo (a : α)
  | GreaterThan (a : α)
  | GreaterOrEqualTo (a : α)
  | LessThan (a : α)
  | LessOrEqualTo (a : α)
  | Between (lo hi : α)
  | BetweenInclusive (lo hi : α)

/-- `Relation::assert` from `requirements/src/relation.rs`. -/
def Relation.assert [LinearOrder α] : Relation α → α → Bool
  | .EqualTo a, x => x = a
  | .GreaterThan a, x => x > a
  | .GreaterOrEqualTo a, x => x ≥ a
  | .LessThan a, x => x < a
  | .LessOrEqualTo a, x => x ≤ a
  | .Between lo hi, x => lo ≤ x && x < hi
  | .BetweenInclusive lo hi, x => lo ≤ x && x ≤ hi

/-- The comparison semantics the claim states, written from its words. -/
def relationHolds [LinearOrder α] : Relation α → α → Prop
  | .EqualTo a, x => x = a
  | .GreaterThan a, x => a < x
  | .GreaterOrEqualTo a, x => a ≤ x
  | .LessThan a, x => x < a
  | .LessOrEqualTo a, x => x ≤ a
  | .Between a b, x => a ≤ x ∧ x < b
  | .BetweenInclusive a b, x => a ≤ x ∧ x ≤ b

/-- **C8.** For every relation variant and every pair of comparable values,
`assert` matches the standard comparison semantics: the five comparisons as
named, `Between(a, b)` exactly when `a ≤ x ∧ x < b` (upper bound exclusive)
and `BetweenInclusive(a, b)` exactly when `a ≤ x ∧ x ≤ b` (closed). -/
theorem relation_assert_matches_semantics [LinearOrder α]
    (r : Relation α) (x : α) :
    r.assert x = true ↔ relationHolds r x := by
  cases r <;> simp [Relation.assert, relationHolds]

/-! ## Deterministic string hashing

Embedding of `hash_string_to_f64` from `requirements/src/utils.rs`.  The
64-bit hash itself is `std::collections::hash_map::DefaultHasher`, which is
Rust standard library code, not repository code; it is abstracted as an
arbitrary function `hasher` into `u64` values.  The modulo reduction and the
division are from the source, with the `f64` division embedded exactly over
`ℚ`. -/

/-- The fixed constant of `hash_string_to_f64` (equal to `2^64 + 13`; the
source comment calls it a Mersenne prime, which it is not, but only its
value matters here). -/
def HASH_PRIME : Nat := 18446744073709551629

/-- `hash_string_to_f64`: hash, reduce modulo `HASH_PRIME`, divide by it. -/
def hash_string_to_f64 (hasher : List Char → Nat) (s : List Char) : ℚ :=
  ((hasher s % HASH_PRIME : Nat) : ℚ) / (HASH_PRIME : ℚ)

/-- **C9.** `hash_string_to_f64` is deterministic — equal input strings give
equal outputs — and its result is the 64-bit hash reduced modulo the fixed
constant 18446744073709551629 and divided by that constant, which always
lies in `[0, 1)` (in the exact arithmetic embedding of the `f64` division). -/
theorem hash_string_to_f64_deterministic_in_unit_interval
    (hasher : List Char → Nat) (s t : List Char) :
    (s = t → hash_string_to_f64 hasher s = hash_string_to_f64 hasher t) ∧
    hash_string_to_f64 hasher s =
      ((hasher s % HASH_PRIME : Nat) : ℚ) / (HASH_PRIME : ℚ) ∧
    0 ≤ hash_string_to_f64 hasher s ∧
    hash_string_to_f64 hasher s < 1 := by
  refine ⟨fun h => by rw [h], rfl, ?_, ?_⟩
  · unfold hash_string_to_f64
    positivity
  · unfold hash_string_to_f64
    rw [div_lt_one (by norm_num [HASH_PRIME])]
    exact_mod_cast Nat.cast_lt.mpr (Nat.mod_lt _ (by norm_num [HASH_PRIME]))

theorem hash_string_to_f64_deterministic_in_unit_interval_witness :
    ((['a'] : List Char) = ['a'] →
      hash_string_to_f64 List.length ['a'] = hash_string_to_f64 List.length ['a']) ∧
    hash_string_to_f64 List.length ['a'] =
      ((List.length ['a'] % HASH_PRIME : Nat) : ℚ) / (HASH_PRIME : ℚ) ∧
    0 ≤ hash_string_to_f64 List.length ['a'] ∧
    hash_string_to_f64 List.length ['a'] < 1 :=
  hash_string_to_f64_deterministic_in_unit_interval List.length ['a'] ['a']

/-! ## Role engine

Embedding of `engine/src/lib.rs` (`Checkable for Role`) and of
`Requirement::check_batch` from `requirements/src/requirement.rs`.

* A `User` carries its numeric id and its identity map
  (`HashMap<String, Vec<String>>`, embedded as a lookup function whose
  misses are the code's `unwrap_or(&vec![])` empty list).
* A `Requirement` carries the `identity_id` naming the identity type it
  selects and, abstracting the HTTP work of `Requirement::check`, a
  function from one identity to `Except` (`Result<bool, RequirementError>`
  with `String` error payloads).
* The `requiem` logic-tree crate is an external dependency, so parsing and
  evaluation are parameters: `parse` may fail with a typed parse error
  (`RoleError::Requiem`), and evaluation of one terminal assignment may
  fail (`unwrap_or(false)` in the source).
* The engine unwraps each requirement's batch result
  (`req.check_batch(client, &identities).await.unwrap()`); an `Outcome`
  distinguishes that panic from a typed error and from success.
-/

structure EUser where
  id : Nat
  identities : String → List String

structure ERequirement where
  identity_id : String
  check : String → Except String Bool

structure ERole where
  logic : String
  requirements : Option (List ERequirement)

/-- Rust `collect::<Result<Vec<_>, _>>`: the first error aborts. -/
def collectExcept (f : α → Except ε β) : List α → Except ε (List β)
  | [] => .ok []
  | a :: l =>
    match f a with
    | .error e => .error e
    | .ok b => (collectExcept f l).map (fun bs => b :: bs)

/-- `Requirement::check_batch`: every identity checked, results collected
into one `Result` (`join_all` then `collect`). -/
def requirement_check_batch (req : ERequirement) (identities : List String) :
    Except String (List Bool) :=
  collectExcept req.check identities

/-- The engine's flattened `(user.id, identity)` pairs for one requirement:
every user's identities of the requirement's declared type, in user order,
an absent type contributing the empty list. -/
def identitiesWithIds (users : List EUser) (idType : String) :
    List (Nat × String) :=
  users.flatMap (fun u => (u.identities idType).map (fun ident => (u.id, ident)))

/-- `.reduce(|a, b| a || b).unwrap_or_default()`. -/
def reduceOr : List Bool → Bool
  | [] => false
  | b :: bs => bs.foldl (· || ·) b

/-- The per-requirement closure inside `Role::check_batch`: check the
flattened identity batch, zip the results back onto the user ids, and give
every user the reduced OR of the results carrying its id. -/
def engineReqAccesses (req : ERequirement) (users : List EUser) :
    Except String (List Bool) :=
  (requirement_check_batch req
      ((identitiesWithIds users req.identity_id).map Prod.snd)).map (fun accesses =>
    users.map (fun u =>
      reduceOr (
        (((identitiesWithIds users req.identity_id).zip accesses).map
            (fun p => (p.1.1, p.2))).filterMap
          (fun p => if u.id = p.1 then some p.2 else none))))

/-- Observable outcome of `Role::check_batch`: a panic (the engine's
`unwrap` of a failed requirement batch), a typed logic-parse error
(`RoleError::Requiem`), or a full result vector. -/
inductive Outcome (π α : Type) where
  | panics
  | errParse (e : π)
  | ok (a : α)
deriving DecidableEq

/-- `Role::check_batch` from `engine/src/lib.rs`: per-requirement access
rows (each row one entry per user), a panic when any requirement's batch
check fails, rotation to per-user rows, then the parsed logic tree
evaluated per user with `unwrap_or(false)`. -/
def role_check_batch (parse : String → Except π τ)
    (evalTree : τ → List Bool → Option Bool)
    (role : ERole) (users : List EUser) : Outcome π (List Bool) :=
  match collectExcept (fun req => engineReqAccesses req users)
      (role.requirements.getD []) with
  | .error _ => .panics
  | .ok accesses_per_req =>
    match parse role.logic with
    | .error e => .errParse e
    | .ok tree =>
      .ok (((List.range users.length).map
          (fun i => accesses_per_req.map (fun row => row.getD i false))).map
        (fun accesses => (evalTree tree accesses).getD false))

/-- The individual result of one identity under a requirement (the value a
successful `check` returned). -/
def checkValue (req : ERequirement) (s : String) : Bool :=
  (req.check s).toOption.getD false

theorem check_eq_ok_of_isOk {req : ERequirement} {s : String}
    (h : (req.check s).isOk) : req.check s = .ok (checkValue req s) := by
  unfold checkValue
  cases hc : req.check s with
  | error e => rw [hc] at h; cases h
  | ok b => rfl

theorem collectExcept_ok_map {f : α → Except ε β} {g : α → β} :
    ∀ {l : List α}, (∀ a ∈ l, f a = .ok (g a)) →
      collectExcept f l = .ok (l.map g) := by
  intro l
  induction l with
  | nil => intro _; rfl
  | cons a l ih =>
    intro h
    have ha := h a (List.mem_cons_self a l)
    simp only [collectExcept, ha]
    rw [ih (fun b hb => h b (List.mem_cons_of_mem a hb))]
    rfl

theorem foldl_or_eq (bs : List Bool) :
    ∀ b, bs.foldl (· || ·) b = (b || bs.any id) := by
  induction bs with
  | nil => intro b; simp
  | cons c cs ih =>
    intro b
    simp only [List.foldl_cons, List.any_cons, id]
    rw [ih (b || c), Bool.or_assoc]

theorem reduceOr_eq_any (l : List Bool) : reduceOr l = l.any id := by
  cases l with
  | nil => rfl
  | cons b bs =>
    simp only [reduceOr, List.any_cons, id]
    exact foldl_or_eq bs b

theorem any_id_map (f : α → Bool) (l : List α) : (l.map f).any id = l.any f := by
  induction l with
  | nil => rfl
  | cons a l ih => simp [List.any_cons, ih]

theorem zip_map_self (g : α → β) :
    ∀ (l : List α), l.zip (l.map g) = l.map (fun x => (x, g x)) := by
  intro l
  induction l with
  | nil => rfl
  | cons a l ih => simp [List.zip_cons_cons, ih]

theorem filterMap_flatMap_eq (f : β → Option γ) (g : α → List β) :
    ∀ (l : List α),
      (l.flatMap g).filterMap f = l.flatMap (fun a => (g a).filterMap f) := by
  intro l
  induction l with
  | nil => rfl
  | cons a l ih => simp [List.flatMap_cons, List.filterMap_append, ih]

theorem flatMap_congr_mem {f g : α → List β} :
    ∀ {l : List α}, (∀ a ∈ l, f a = g a) → l.flatMap f = l.flatMap g := by
  intro l
  induction l with
  | nil => intro _; rfl
  | cons a l ih =>
    intro h
    simp only [List.flatMap_cons]
    rw [h a (List.mem_cons_self a l), ih (fun b hb => h b (List.mem_cons_of_mem a hb))]

theorem flatMap_eq_nil_of_forall {f : α → List β} :
    ∀ {l : List α}, (∀ a ∈ l, f a = []) → l.flatMap f = [] := by
  intro l
  induction l with
  | nil => intro _; rfl
  | cons a l ih =>
    intro h
    simp only [List.flatMap_cons]
    rw [h a (List.mem_cons_self a l), ih (fun b hb => h b (List.mem_cons_of_mem a hb))]
    rfl

theorem getD_map_get (F : α → β) (d : β) :
    ∀ (l : List α) (j : Nat) (hj : j < l.length),
      (l.map F).getD j d = F (l.get ⟨j, hj⟩) := by
  intro l j hj
  rw [List.getD_eq_getElem?_getD, List.getElem?_map, List.getElem?_eq_getElem hj]
  rfl

theorem engineReqAccesses_eval (req : ERequirement) (users : List EUser)
    (hok : ∀ p ∈ identitiesWithIds users req.identity_id, (req.check p.2).isOk) :
    engineReqAccesses req users = .ok (users.map (fun u =>
      reduceOr ((identitiesWithIds users req.identity_id).filterMap
        (fun p => if u.id = p.1 then some (checkValue req p.2) else none)))) := by
  unfold engineReqAccesses
  have hbatch : requirement_check_batch req
        ((identitiesWithIds users req.identity_id).map Prod.snd)
      = .ok (((identitiesWithIds users req.identity_id).map Prod.snd).map
          (fun s => checkValue req s)) := by
    unfold requirement_check_batch
    apply collectExcept_ok_map
    intro s hs
    obtain ⟨p, hp, rfl⟩ := List.mem_map.mp hs
    exact check_eq_ok_of_isOk (hok p hp)
  rw [hbatch]
  show Except.ok _ = Except.ok _
  congr 1
  apply List.map_congr_left
  intro u _
  congr 1
  rw [List.map_map, zip_map_self, List.map_map, List.filterMap_map]
  rfl

theorem filterMap_congr_mem {f g : α → Option β} :
    ∀ {l : List α}, (∀ a ∈ l, f a = g a) → l.filterMap f = l.filterMap g := by
  intro l
  induction l with
  | nil => intro _; rfl
  | cons a l ih =>
    intro h
    simp only [List.filterMap_cons]
    rw [h a (List.mem_cons_self a l), ih (fun b hb => h b (List.mem_cons_of_mem a hb))]

theorem filterMap_none_eq_nil : ∀ (l : List α),
    l.filterMap (fun _ => (none : Option β)) = [] := by
  intro l
  induction l with
  | nil => rfl
  | cons a l ih => simp only [List.filterMap_cons, ih]

theorem flatMap_nodup_single_segment (T : String) (bval : String → Bool) :
    ∀ (us : List EUser) (j : Nat) (hj : j < us.length),
      (us.map EUser.id).Nodup →
      us.flatMap (fun v =>
          if (us.get ⟨j, hj⟩).id = v.id then (v.identities T).map bval else [])
        = ((us.get ⟨j, hj⟩).identities T).map bval := by
  intro us
  induction us with
  | nil => intro j hj _; cases hj
  | cons w ws ih =>
    intro j hj hnd
    have hnd2 : (w.id :: ws.map EUser.id).Nodup := by simpa using hnd
    obtain ⟨hwnotin, hndtail⟩ := List.nodup_cons.mp hnd2
    cases j with
    | zero =>
      show (if w.id = w.id then (w.identities T).map bval else [])
          ++ ws.flatMap (fun v =>
              if w.id = v.id then (v.identities T).map bval else [])
          = (w.identities T).map bval
      rw [if_pos rfl]
      have htail : ws.flatMap (fun v =>
          if w.id = v.id then (v.identities T).map bval else []) = [] := by
        apply flatMap_eq_nil_of_forall
        intro v hv
        rw [if_neg]
        intro hcontr
        apply hwnotin
        rw [hcontr]
        exact List.mem_map_of_mem EUser.id hv
      rw [htail, List.append_nil]
    | succ i =>
      have hi : i < ws.length := by simpa using hj
      have hmem : (ws.get ⟨i, hi⟩).id ∈ ws.map EUser.id :=
        List.mem_map_of_mem EUser.id (ws.get_mem i hi)
      have hne : ¬ (ws.get ⟨i, hi⟩).id = w.id := by
        intro hcontr
        apply hwnotin
        rw [← hcontr]
        exact hmem
      show (if (ws.get ⟨i, hi⟩).id = w.id then (w.identities T).map bval else [])
          ++ ws.flatMap (fun v =>
              if (ws.get ⟨i, hi⟩).id = v.id then (v.identities T).map bval else [])
          = ((ws.get ⟨i, hi⟩).identities T).map bval
      rw [if_neg hne]
      rw [List.nil_append]
      exact ih i hi hndtail

/-- **C2 (amended).** For every requirement and every user batch with
pairwise-distinct user ids, when every matching identity's check succeeds
the per-requirement engine pass returns one boolean per user, and the entry
of each user is the logical OR of the individual results of that user's
identities of the requirement's declared identity type; a user with zero
identities of that type gets `false` and no error arises from it (the
success hypothesis ranges only over identities that are present). -/
theorem engine_or_grouping_per_user (req : ERequirement) (users : List EUser)
    (hnodup : (users.map EUser.id).Nodup)
    (hok : ∀ p ∈ identitiesWithIds users req.identity_id, (req.check p.2).isOk) :
    ∃ res, engineReqAccesses req users = .ok res ∧
      res.length = users.length ∧
      ∀ j (hj : j < users.length),
        res.getD j false =
          ((users.get ⟨j, hj⟩).identities req.identity_id).any
            (checkValue req) ∧
        ((users.get ⟨j, hj⟩).identities req.identity_id = [] →
          res.getD j false = false) := by
  refine ⟨_, engineReqAccesses_eval req users hok, by simp, ?_⟩
  intro j hj
  have hmain : (users.map (fun u =>
      reduceOr ((identitiesWithIds users req.identity_id).filterMap
        (fun p => if u.id = p.1 then some (checkValue req p.2) else none)))).getD
          j false
      = ((users.get ⟨j, hj⟩).identities req.identity_id).any (checkValue req) := by
    rw [getD_map_get _ _ users j hj]
    rw [show identitiesWithIds users req.identity_id
        = users.flatMap (fun v => (v.identities req.identity_id).map
            (fun s => (v.id, s))) from rfl]
    rw [filterMap_flatMap_eq]
    have hseg : ∀ v ∈ users,
        ((v.identities req.identity_id).map (fun s => (v.id, s))).filterMap
            (fun p => if (users.get ⟨j, hj⟩).id = p.1
              then some (checkValue req p.2) else none)
          = (if (users.get ⟨j, hj⟩).id = v.id
              then (v.identities req.identity_id).map (checkValue req) else []) := by
      intro v _
      rw [List.filterMap_map]
      by_cases hid : (users.get ⟨j, hj⟩).id = v.id
      · rw [if_pos hid]
        rw [filterMap_congr_mem (g := fun s => some (checkValue req s))
          (fun s _ => by simp only [Function.comp_apply, if_pos hid])]
        exact congrFun (List.filterMap_eq_map _) _
      · rw [if_neg hid]
        rw [filterMap_congr_mem (g := fun _ => (none : Option Bool))
          (fun s _ => by simp only [Function.comp_apply, if_neg hid])]
        exact filterMap_none_eq_nil _
    rw [flatMap_congr_mem hseg]
    rw [flatMap_nodup_single_segment req.identity_id (checkValue req) users j hj hnodup]
    rw [reduceOr_eq_any, any_id_map]
  constructor
  · exact hmain
  · intro hempty
    rw [hmain, hempty]
    rfl

/-- Requirement over the `evm` identity type whose check accepts exactly the
identity `b`. -/
def reqB : ERequirement := ⟨"evm", fun s => .ok (s == "b")⟩

/-- User 1 with two `evm` identities. -/
def userAB : EUser := ⟨1, fun t => if t == "evm" then ["a", "b"] else []⟩

/-- User 2 with no identities at all. -/
def userNone : EUser := ⟨2, fun _ => []⟩

theorem engine_or_grouping_per_user_witness :
    (([userAB, userNone].map EUser.id).Nodup ∧
      (∀ p ∈ identitiesWithIds [userAB, userNone] reqB.identity_id,
        (reqB.check p.2).isOk)) ∧
    (∃ res, engineReqAccesses reqB [userAB, userNone] = .ok res ∧
      res.length = [userAB, userNone].length ∧
      ∀ j (hj : j < [userAB, userNone].length),
        res.getD j false =
          (([userAB, userNone].get ⟨j, hj⟩).identities reqB.identity_id).any
            (checkValue reqB) ∧
        (([userAB, userNone].get ⟨j, hj⟩).identities reqB.identity_id = [] →
          res.getD j false = false)) :=
  ⟨⟨by decide, fun p _ => rfl⟩,
    engine_or_grouping_per_user reqB [userAB, userNone] (by decide) (fun p _ => rfl)⟩

/-- Two distinct user records sharing the id 1, with different identities. -/
def dupUserA : EUser := ⟨1, fun t => if t == "evm" then ["a"] else []⟩

def dupUserB : EUser := ⟨1, fun t => if t == "evm" then ["b"] else []⟩

/-- **C2 (counterexample).** In a batch of two user records sharing id 1,
the engine gives the first record the result `true` although the OR of the
individual results of that record's own matching identities is `false`: the
per-id regrouping mixes the identities of records with equal ids. -/
theorem engine_mixes_duplicate_id_users :
    engineReqAccesses reqB [dupUserA, dupUserB] = .ok [true, true] ∧
    (dupUserA.identities "evm").any (checkValue reqB) = false :=
  ⟨rfl, rfl⟩

/-- **C3 (amended).** For every logic parser, tree evaluator, role and user
batch, when every requirement's batch check succeeds the caller receives
either a complete per-user boolean vector (one entry per input user, in
input order) or a typed logic-parse error; a failing requirement batch
check, however, is unwrapped by the engine and panics instead of producing
a typed value (see the counterexample theorem). -/
theorem role_check_batch_outcome {π τ : Type} (parse : String → Except π τ)
    (evalTree : τ → List Bool → Option Bool) (role : ERole) (users : List EUser)
    (hok : ∀ req ∈ role.requirements.getD [],
      ∀ p ∈ identitiesWithIds users req.identity_id, (req.check p.2).isOk) :
    (∃ res, role_check_batch parse evalTree role users = .ok res ∧
      res.length = users.length) ∨
    (∃ e, role_check_batch parse evalTree role users = .errParse e) := by
  have hcoll : collectExcept (fun req => engineReqAccesses req users)
      (role.requirements.getD [])
      = .ok ((role.requirements.getD []).map (fun req => users.map (fun u =>
          reduceOr ((identitiesWithIds users req.identity_id).filterMap
            (fun p => if u.id = p.1 then some (checkValue req p.2) else none))))) :=
    collectExcept_ok_map (fun req hreq => engineReqAccesses_eval req users (hok req hreq))
  unfold role_check_batch
  rw [hcoll]
  cases hp : parse role.logic with
  | error e =>
    right
    exact ⟨e, rfl⟩
  | ok tree =>
    left
    refine ⟨_, rfl, ?_⟩
    simp

theorem role_check_batch_outcome_witness :
    (∀ req ∈ (ERole.mk "0" (some [reqB])).requirements.getD [],
      ∀ p ∈ identitiesWithIds [userAB] req.identity_id, (req.check p.2).isOk) ∧
    ((∃ res, role_check_batch (fun _ => (Except.ok 0 : Except String Nat))
        (fun _ accesses => some (accesses.getD 0 false))
        (ERole.mk "0" (some [reqB])) [userAB] = .ok res ∧
      res.length = [userAB].length) ∨
    (∃ e, role_check_batch (fun _ => (Except.ok 0 : Except String Nat))
        (fun _ accesses => some (accesses.getD 0 false))
        (ERole.mk "0" (some [reqB])) [userAB] = .errParse e)) :=
  ⟨fun req hreq p _ => by
      rcases List.mem_singleton.mp hreq with rfl
      rfl,
    role_check_batch_outcome (fun _ => (Except.ok 0 : Except String Nat))
      (fun _ accesses => some (accesses.getD 0 false))
      (ERole.mk "0" (some [reqB])) [userAB]
      (fun req hreq p _ => by
        rcases List.mem_singleton.mp hreq with rfl
        rfl)⟩

/-- Requirement whose batch check fails with a transport error. -/
def failReq : ERequirement := ⟨"evm", fun _ => .error "transport error"⟩

/-- **C3 (counterexample).** A role with one requirement whose batch check
fails (a transport error on the single matching identity) makes
`Role::check_batch` panic (the `unwrap` of the failed requirement result):
the caller gets neither a per-user vector nor a typed error value. -/
theorem role_check_batch_panics_on_failed_requirement :
    role_check_batch (fun _ => (Except.ok 0 : Except String Nat))
      (fun _ accesses => some (accesses.getD 0 false))
      (ERole.mk "0" (some [failReq])) [userAB] = Outcome.panics :=
  rfl

theorem relation_assert_matches_semantics_witness :
    ((Relation.Between (1 : ℚ) 3).assert 2 = true ↔
      relationHolds (Relation.Between (1 : ℚ) 3) 2) ∧
    ((Relation.BetweenInclusive (1 : ℚ) 2).assert 2 = true ↔
      relationHolds (Relation.BetweenInclusive (1 : ℚ) 2) 2) :=
  ⟨relation_assert_matches_semantics (Relation.Between (1 : ℚ) 3) 2,
    relation_assert_matches_semantics (Relation.BetweenInclusive (1 : ℚ) 2) 2⟩
